import Mathlib

/-!
Verification of the carcara / alethe proof checker core against its
natural-language specification.

The development shallowly embeds two parts of the repository:

* `src/carcara/src/checker/rules/cutting_planes.rs` — the four
  cutting-planes rule checkers over pseudo-boolean inequalities
  (`cp_addition`, `cp_multiplication`, `cp_division`, `cp_saturation`)
  together with their parsing helpers (`get_pb_hashmap`,
  `unwrap_pseudoboolean_inequality`).
* `src/alethe-proof-checker/src/checker/mod.rs` — the iterative proof
  walker (`check`), its handling of `Assume` commands, and
  `build_context`'s construction of the cumulative substitution map.

Rust `HashMap`s are modelled as association lists with insert-replace
semantics (`alInsert` / `alLookup`); all statements about maps are made
through `alLookup`, so the unspecified iteration order of `HashMap` is
immaterial.  Machine integers do not occur: the source uses
arbitrary-precision `rug::Integer`, modelled as `Int`.  A Rust panic
(out-of-bounds index, division by zero) is modelled by the `crashed`
outcome of the `RuleOut` monad.
-/

set_option autoImplicit false

universe u v

/-! ### Association lists modelling `HashMap` -/

section AssocMap

variable {α : Type u} {β : Type v} [DecidableEq α]

/-- Insert-replace, the behaviour of `HashMap::insert`: if the key is
present its value is replaced, otherwise the pair is appended. -/
def alInsert : List (α × β) → α → β → List (α × β)
  | [], k, v => [(k, v)]
  | (k₀, v₀) :: rest, k, v =>
    if k₀ = k then (k, v) :: rest else (k₀, v₀) :: alInsert rest k v

/-- Lookup, the behaviour of `HashMap::get`. -/
def alLookup : List (α × β) → α → Option β
  | [], _ => none
  | (k₀, v₀) :: rest, k => if k = k₀ then some v₀ else alLookup rest k

/-- The keys of the map, in entry order. -/
def alKeys (m : List (α × β)) : List α := m.map Prod.fst

end AssocMap

/-! ### Term algebra

Only the fragment of the `Term` data model that the embedded code
inspects is represented: integer literals, named variables, and built-in
operator applications.  This is the fragment over which the cutting
planes rules and the walker's `Assume` handling pattern-match. -/

/-- Built-in operators used by the embedded code. -/
inductive Op where
  | plus
  | mult
  | ge
deriving DecidableEq, Repr

/-- Terms: integer literals, variables, operator applications. -/
inductive Term where
  | int (n : Int) : Term
  | var (s : String) : Term
  | op (o : Op) (args : List Term) : Term
deriving Repr

mutual

def termBeq : Term → Term → Bool
  | .int a, .int b => a == b
  | .var a, .var b => a == b
  | .op o₁ a₁, .op o₂ a₂ => decide (o₁ = o₂) && termsBeq a₁ a₂
  | _, _ => false

def termsBeq : List Term → List Term → Bool
  | [], [] => true
  | a :: as, b :: bs => termBeq a b && termsBeq as bs
  | _, _ => false

end

mutual

def termBeq_iff : ∀ a b : Term, termBeq a b = true ↔ a = b
  | .int a, .int b => by simp [termBeq]
  | .int _, .var _ => by simp [termBeq]
  | .int _, .op _ _ => by simp [termBeq]
  | .var _, .int _ => by simp [termBeq]
  | .var a, .var b => by simp [termBeq]
  | .var _, .op _ _ => by simp [termBeq]
  | .op _ _, .int _ => by simp [termBeq]
  | .op _ _, .var _ => by simp [termBeq]
  | .op o₁ a₁, .op o₂ a₂ => by
    simp [termBeq, termsBeq_iff a₁ a₂]

def termsBeq_iff : ∀ as bs : List Term, termsBeq as bs = true ↔ as = bs
  | [], [] => by simp [termsBeq]
  | [], _ :: _ => by simp [termsBeq]
  | _ :: _, [] => by simp [termsBeq]
  | a :: as, b :: bs => by
    simp [termsBeq, termBeq_iff a b, termsBeq_iff as bs]

end

instance : DecidableEq Term := fun a b => decidable_of_iff _ (termBeq_iff a b)

def opToString : Op → String
  | .plus => "+"
  | .mult => "*"
  | .ge => ">="

mutual

/-- Rendering of a term, the model of `Term::to_string()` used as the
`HashMap` key for literals in `get_pb_hashmap`. -/
def termToString : Term → String
  | .int n => toString n
  | .var s => s
  | .op o args => "(" ++ opToString o ++ termsToString args ++ ")"

def termsToString : List Term → String
  | [] => ""
  | t :: ts => " " ++ termToString t ++ termsToString ts

end

/-! ### Cutting-planes rules (`src/carcara/src/checker/rules/cutting_planes.rs`)

The rule checkers return `RuleResult = Result<(), CheckerError>`, but two
of them index slices without a length guard and `cp_division` divides by
the caller-supplied divisor, so a Rust panic is a reachable outcome.  The
`RuleOut` monad makes that outcome explicit: `ok` / `err` are the two
values of `RuleResult`, and `crashed` marks a panic. -/

/-- Error values produced by the embedded code.  The kinds and payloads of
the errors constructed inside `cutting_planes.rs` (`ExpectedInteger`,
`ExpectedToNotBeEmpty`) are taken from the source; the kinds produced by
the framework guards (`assert_num_premises`, `assert_num_args`,
`assert_clause_len`, `match_term_err`, `as_integer_err`, `as_term`) are
modelled from the spec's error taxonomy (§4.5, §7), since the framework
module itself is not among the provided sources. -/
inductive CheckerError where
  | wrongNumberOfPremises (expected got : Nat)
  | wrongNumberOfArgs (expected got : Nat)
  | wrongLengthOfClause (expected got : Nat)
  | couldNotMatch (t : Term)
  | expectedInteger (n : Int) (t : Term)
  | expectedIntegerTerm (t : Term)
  | expectedTermStyleArg
  | expectedToNotBeEmpty (t : Term)
deriving DecidableEq, Repr

/-- Outcome of running a rule checker: success, a returned `CheckerError`,
or a Rust panic (`crashed`). -/
inductive RuleOut (α : Type u) where
  | ok (a : α)
  | err (e : CheckerError)
  | crashed
deriving Repr

def RuleOut.beq {α : Type u} [DecidableEq α] : RuleOut α → RuleOut α → Bool
  | .ok a, .ok b => decide (a = b)
  | .err e, .err f => decide (e = f)
  | .crashed, .crashed => true
  | _, _ => false

def RuleOut.beq_iff {α : Type u} [DecidableEq α] :
    ∀ a b : RuleOut α, RuleOut.beq a b = true ↔ a = b := by
  intro a b; cases a <;> cases b <;> simp [RuleOut.beq]

instance {α : Type u} [DecidableEq α] : DecidableEq (RuleOut α) :=
  fun a b => decidable_of_iff _ (RuleOut.beq_iff a b)

def RuleOut.bind {α β : Type u} : RuleOut α → (α → RuleOut β) → RuleOut β
  | .ok a, f => f a
  | .err e, _ => .err e
  | .crashed, _ => .crashed

instance : Monad RuleOut where
  pure := .ok
  bind := RuleOut.bind

/-- Lift a `Result<_, CheckerError>` value (the `?` operator on an
expression that cannot panic). -/
def liftE {α : Type} : Except CheckerError α → RuleOut α
  | .ok a => .ok a
  | .error e => .err e

/-- Slice indexing `v[i]`: out of bounds is a Rust panic. -/
def vecIdx {α : Type} : List α → Nat → RuleOut α
  | [], _ => .crashed
  | a :: _, 0 => .ok a
  | _ :: rest, n + 1 => vecIdx rest n

/-- The literal-string → coefficient map (`type PbHash = HashMap<String, Integer>`). -/
abbrev PbHash := List (String × Int)

/-- Shape-match of `(* coeff literal)` (`match_term_err!`): a `*`
application with exactly two arguments; anything else is a
`CouldNotMatch` error.  Modelled from the spec: the `match_term_err!`
macro is part of the rule framework (§4.5), whose source is not
provided. -/
def matchMult : Term → Except CheckerError (Term × Term)
  | .op .mult [c, l] => .ok (c, l)
  | t => .error (.couldNotMatch t)

/-- Coercion of a term to an arbitrary-precision integer
(`as_integer_err`).  Modelled from the spec: value-level mismatch errors
(§7); the helper's source is not provided. -/
def asIntegerErr : Term → Except CheckerError Int
  | .int n => .ok n
  | t => .error (.expectedIntegerTerm t)

/-- The loop body of `get_pb_hashmap`: for each summand, match
`(* coeff literal)`, coerce the coefficient, and insert under the
literal's string rendering (later insertions replace earlier ones). -/
def pbLoop : List Term → PbHash → Except CheckerError PbHash
  | [], hm => .ok hm
  | t :: rest, hm => do
    let (coeff, literal) ← matchMult t
    let coeff ← asIntegerErr coeff
    pbLoop rest (alInsert hm (termToString literal) coeff)

/-- `get_pb_hashmap`: processes all but the last summand
(`let n = pbsum.len() - 1; for term in pbsum.iter().take(n)`).  The
truncating `Nat` subtraction matches the release-mode behaviour on an
empty slice, where `take` of the wrapped length also yields no
iterations. -/
def get_pb_hashmap (pbsum : List Term) : Except CheckerError PbHash :=
  pbLoop (pbsum.take (pbsum.length - 1)) []

/-- `unwrap_pseudoboolean_inequality`: match `(>= (+ ...) constant)`,
coerce the constant, then build the coefficient map. -/
def unwrap_pseudoboolean_inequality (clause : Term) : Except CheckerError (PbHash × Int) :=
  match clause with
  | .op .ge [.op .plus pbsum, constant] => do
    let k ← asIntegerErr constant
    let hm ← get_pb_hashmap pbsum
    .ok (hm, k)
  | t => .error (.couldNotMatch t)

/-- A resolved premise as seen by a rule: the clause of the referenced
command. -/
structure Premise where
  clause : List Term
deriving DecidableEq, Repr

/-- A step argument: a plain term or an `(:= name value)` assignment. -/
inductive ProofArg where
  | term (t : Term)
  | assign (name : String) (t : Term)
deriving DecidableEq, Repr

/-- `ProofArg::as_term`.  Modelled from the spec: the accessor lives in
the rule framework, whose source is not provided; on an assignment
argument it surfaces an error. -/
def ProofArg.asTerm : ProofArg → Except CheckerError Term
  | .term t => .ok t
  | .assign _ _ => .error .expectedTermStyleArg

/-- The slice of the `RuleArgs` bundle consumed by the cutting-planes
rules (the pool, context and subproof fields are not read by them). -/
structure RuleArgs where
  premises : List Premise
  args : List ProofArg
  conclusion : List Term
deriving DecidableEq, Repr

/-- `assert_num_premises`.  Modelled from the spec: framework guard
(§4.5) with error kind `WrongNumberOfPremises` (§7). -/
def assert_num_premises (premises : List Premise) (n : Nat) : Except CheckerError Unit :=
  if premises.length = n then .ok () else .error (.wrongNumberOfPremises n premises.length)

/-- `assert_num_args`.  Modelled from the spec: framework guard (§4.5)
with error kind `WrongNumberOfArgs` (§7). -/
def assert_num_args (args : List ProofArg) (n : Nat) : Except CheckerError Unit :=
  if args.length = n then .ok () else .error (.wrongNumberOfArgs n args.length)

/-- `assert_clause_len`.  Modelled from the spec: framework guard (§4.5)
with error kind `WrongLengthOfClause` (§7). -/
def assert_clause_len (clause : List Term) (n : Nat) : Except CheckerError Unit :=
  if clause.length = n then .ok () else .error (.wrongLengthOfClause n clause.length)

/-- The two key-inclusion loops of `cp_addition` and the first loops of
`cp_multiplication` / `cp_saturation`: every key of `dom` must be
present in `target`, else `ExpectedToNotBeEmpty(errTerm)`. -/
def checkKeysIn (dom target : PbHash) (errTerm : Term) : Except CheckerError Unit :=
  match dom with
  | [] => .ok ()
  | (lit, _) :: rest =>
    match alLookup target lit with
    | some _ => checkKeysIn rest target errTerm
    | none => .error (.expectedToNotBeEmpty errTerm)

/-- The per-literal loop of `cp_addition` over the conclusion's entries. -/
def addLoop (entriesC pbsumL pbsumR : PbHash) (conclTerm leftTerm : Term) :
    Except CheckerError Unit :=
  match entriesC with
  | [] => .ok ()
  | (lit, coeffC) :: rest =>
    match alLookup pbsumL lit, alLookup pbsumR lit with
    | some coeffL, some coeffR =>
      if coeffL + coeffR = coeffC then addLoop rest pbsumL pbsumR conclTerm leftTerm
      else .error (.expectedInteger (coeffL + coeffR) conclTerm)
    | some coeffL, none =>
      if coeffL = coeffC then addLoop rest pbsumL pbsumR conclTerm leftTerm
      else .error (.expectedInteger coeffL conclTerm)
    | none, some coeffR =>
      if coeffR = coeffC then addLoop rest pbsumL pbsumR conclTerm leftTerm
      else .error (.expectedInteger coeffR conclTerm)
    | none, none => .error (.expectedToNotBeEmpty leftTerm)

/-- `cp_addition` (lines 73–157 of `cutting_planes.rs`). -/
def cp_addition (r : RuleArgs) : RuleOut Unit := do
  liftE (assert_num_premises r.premises 2)
  let p0 ← vecIdx r.premises 0
  liftE (assert_clause_len p0.clause 1)
  let left_clause ← vecIdx p0.clause 0
  let p1 ← vecIdx r.premises 1
  liftE (assert_clause_len p1.clause 1)
  let right_clause ← vecIdx p1.clause 0
  liftE (assert_num_args r.args 0)
  liftE (assert_clause_len r.conclusion 1)
  let conclusion ← vecIdx r.conclusion 0
  let lk ← liftE (unwrap_pseudoboolean_inequality left_clause)
  let rk ← liftE (unwrap_pseudoboolean_inequality right_clause)
  let ck ← liftE (unwrap_pseudoboolean_inequality conclusion)
  if lk.2 + rk.2 = ck.2 then pure () else
    RuleOut.err (.expectedInteger (lk.2 + rk.2) conclusion)
  liftE (checkKeysIn lk.1 ck.1 conclusion)
  liftE (checkKeysIn rk.1 ck.1 conclusion)
  liftE (addLoop ck.1 lk.1 rk.1 conclusion left_clause)

/-- The per-literal loop of `cp_multiplication` over the premise's
entries. -/
def mulLoop (entriesP pbsumC : PbHash) (scalar : Int) (conclTerm clauseTerm : Term) :
    Except CheckerError Unit :=
  match entriesP with
  | [] => .ok ()
  | (lit, coeffP) :: rest =>
    match alLookup pbsumC lit with
    | some coeffC =>
      if scalar * coeffP = coeffC then mulLoop rest pbsumC scalar conclTerm clauseTerm
      else .error (.expectedInteger (scalar * coeffP) conclTerm)
    | none => .error (.expectedToNotBeEmpty clauseTerm)

/-- `cp_multiplication` (lines 159–214 of `cutting_planes.rs`). -/
def cp_multiplication (r : RuleArgs) : RuleOut Unit := do
  liftE (assert_num_premises r.premises 1)
  let p0 ← vecIdx r.premises 0
  liftE (assert_clause_len p0.clause 1)
  let clause ← vecIdx p0.clause 0
  liftE (assert_num_args r.args 1)
  let a0 ← vecIdx r.args 0
  let t0 ← liftE a0.asTerm
  let scalar ← liftE (asIntegerErr t0)
  liftE (assert_clause_len r.conclusion 1)
  let conclusion ← vecIdx r.conclusion 0
  let pk ← liftE (unwrap_pseudoboolean_inequality clause)
  let ck ← liftE (unwrap_pseudoboolean_inequality conclusion)
  if scalar * pk.2 = ck.2 then pure () else
    RuleOut.err (.expectedInteger (scalar * pk.2) conclusion)
  liftE (checkKeysIn ck.1 pk.1 conclusion)
  liftE (mulLoop pk.1 ck.1 scalar conclusion clause)

/-- The per-literal loop of `cp_division`: literals of the premise absent
from the conclusion are skipped without any check. -/
def divLoop (entriesP pbsumC : PbHash) (divisor : Int) (conclTerm : Term) :
    Except CheckerError Unit :=
  match entriesP with
  | [] => .ok ()
  | (lit, coeffP) :: rest =>
    match alLookup pbsumC lit with
    | some coeffC =>
      if Int.tdiv (coeffP + divisor - 1) divisor = coeffC then
        divLoop rest pbsumC divisor conclTerm
      else .error (.expectedInteger (Int.tdiv (coeffP + divisor - 1) divisor) conclTerm)
    | none => divLoop rest pbsumC divisor conclTerm

/-- `cp_division` (lines 216–252 of `cutting_planes.rs`).  The premise's
clause is indexed without a length guard, and `rug` division by zero is a
panic; both are `crashed` outcomes.  `rug`'s `/` truncates toward zero,
which is `Int.tdiv`. -/
def cp_division (r : RuleArgs) : RuleOut Unit := do
  liftE (assert_num_premises r.premises 1)
  let p0 ← vecIdx r.premises 0
  let clause ← vecIdx p0.clause 0
  liftE (assert_num_args r.args 1)
  let a0 ← vecIdx r.args 0
  let t0 ← liftE a0.asTerm
  let divisor ← liftE (asIntegerErr t0)
  liftE (assert_clause_len r.conclusion 1)
  let conclusion ← vecIdx r.conclusion 0
  let pk ← liftE (unwrap_pseudoboolean_inequality clause)
  let ck ← liftE (unwrap_pseudoboolean_inequality conclusion)
  if divisor = 0 then RuleOut.crashed else pure ()
  if Int.tdiv (pk.2 + divisor - 1) divisor = ck.2 then pure () else
    RuleOut.err (.expectedInteger (Int.tdiv pk.2 divisor) conclusion)
  liftE (divLoop pk.1 ck.1 divisor conclusion)

/-- The per-literal loop of `cp_saturation` over the premise's entries. -/
def satLoop (entriesP pbsumC : PbHash) (constantP : Int) (conclTerm clauseTerm : Term) :
    Except CheckerError Unit :=
  match entriesP with
  | [] => .ok ()
  | (lit, coeffP) :: rest =>
    match alLookup pbsumC lit with
    | some coeffC =>
      if min constantP coeffP = coeffC then satLoop rest pbsumC constantP conclTerm clauseTerm
      else .error (.expectedInteger (min constantP coeffP) conclTerm)
    | none => .error (.expectedToNotBeEmpty clauseTerm)

/-- `cp_saturation` (lines 254–304 of `cutting_planes.rs`).  As in
`cp_division`, the premise's clause is indexed without a length guard. -/
def cp_saturation (r : RuleArgs) : RuleOut Unit := do
  liftE (assert_num_premises r.premises 1)
  liftE (assert_num_args r.args 0)
  let p0 ← vecIdx r.premises 0
  let clause ← vecIdx p0.clause 0
  liftE (assert_clause_len r.conclusion 1)
  let conclusion ← vecIdx r.conclusion 0
  let pk ← liftE (unwrap_pseudoboolean_inequality clause)
  let ck ← liftE (unwrap_pseudoboolean_inequality conclusion)
  if pk.2 = ck.2 then pure () else
    RuleOut.err (.expectedInteger pk.2 conclusion)
  liftE (checkKeysIn ck.1 pk.1 conclusion)
  liftE (satLoop pk.1 ck.1 pk.2 conclusion clause)

/-- Shorthand for a `(* c ℓ)` summand. -/
def tMul (c : Int) (l : Term) : Term := .op .mult [.int c, l]

/-- Shorthand for a `(+ ...)` sum. -/
def tSum (ts : List Term) : Term := .op .plus ts

/-- Shorthand for a `(>= sum K)` inequality. -/
def tGe (s : Term) (k : Int) : Term := .op .ge [s, .int k]

/-! ### Proof walker (`src/alethe-proof-checker/src/checker/mod.rs`)

The walker is embedded as a single-iteration transition function
`walkerStep` over the state the `check` loop maintains: the
`commands_stack` of `(cursor, command slice)` frames and the `context`
stack.  Code that lives outside the provided sources is passed in as
parameters of `WalkerConfig`: `DeepEq::eq_modulo_reordering` (in the
`ast` module), `TermPool::apply_substitutions` (likewise), and the body
of `check_step` past its non-mutation of the two stacks (rule lookup and
the individual rule functions).  The `assert!(commands_stack.len() == 1)`
at the end of the loop and the `unwrap` after popping a frame are
modelled as `crashed`. -/

/-- A proof step command.  The `discharge` attribute is recorded by the
parser but never consulted when checking, so it is not represented. -/
structure ProofStep where
  index : String
  clause : List Term
  rule : String
  premises : List (Nat × Nat)
  args : List ProofArg

/-- Proof commands: `Assume`, `Step`, or a nested `Subproof`. -/
inductive ProofCommand where
  | assume (index : String) (term : Term)
  | step (s : ProofStep)
  | subproof (commands : List ProofCommand)
      (assignment_args : List (String × Term))
      (variable_args : List (String × Term))

/-- A handle-to-handle substitution (`AHashMap<Rc<Term>, Rc<Term>>`). -/
abbrev SubstMap := List (Term × Term)

/-- A subproof context. -/
structure Context where
  substitutions : SubstMap
  substitutions_until_fixed_point : SubstMap
  cumulative_substitutions : SubstMap
  bindings : List (String × Term)

/-- The cumulative-substitution construction of `build_context` (lines
239–248): starting from a copy of the current fixed-point map, each pair
`(k, v)` of the parent's cumulative map is inserted as
`(k, lookup(v, fixed_point, default v))`.  Because these insertions
happen over the fixed-point copy, on a shared key the parent-derived
binding replaces the fixed-point one. -/
def cumulativeOf (parentCumulative fp : SubstMap) : SubstMap :=
  parentCumulative.foldl (fun cum kv => alInsert cum kv.1 ((alLookup fp kv.2).getD kv.2)) fp

/-- `build_context`.  `applySubst` stands for
`TermPool::apply_substitutions`, whose source (in the `ast` module) is
not provided; the variable key term is modelled as a plain variable (the
sort annotation the pool attaches comes from the same external module). -/
def build_context (applySubst : SubstMap → Term → Term)
    (assignment_args variable_args : List (String × Term))
    (parent : Option Context) : Context :=
  let maps := assignment_args.foldl
    (fun (acc : SubstMap × SubstMap) vv =>
      (alInsert acc.1 (Term.var vv.1) vv.2,
       alInsert acc.2 (Term.var vv.1) (applySubst acc.2 vv.2)))
    ([], [])
  { substitutions := maps.1
    substitutions_until_fixed_point := maps.2
    cumulative_substitutions :=
      match parent with
      | some p => cumulativeOf p.cumulative_substitutions maps.2
      | none => maps.2
    bindings := variable_args }

/-- The walker's error value: a `RuleError` kind wrapped with the rule
name and step index. -/
inductive RuleErrorKind where
  | unspecified
  | unknownRule
deriving DecidableEq, Repr

structure WalkerError where
  inner : RuleErrorKind
  ruleName : String
  step : String
deriving DecidableEq, Repr

/-- The parts of the checker that are external to `checker/mod.rs`,
passed as parameters: the configuration flag, equality modulo
reordering, substitution application, and the rule dispatch performed by
`check_step` (which reads the stacks but never mutates them). -/
structure WalkerConfig where
  isRunningTest : Bool
  eqModReordering : Term → Term → Bool
  applySubst : SubstMap → Term → Term
  checkStepFn : ProofStep → List (Nat × List ProofCommand) → Bool → Except WalkerError Unit

/-- A parsed proof: the premise set and the root command list. -/
structure Proof where
  premises : List Term
  commands : List ProofCommand

/-- The state maintained by the `check` loop. -/
structure WalkerState where
  commandsStack : List (Nat × List ProofCommand)
  contexts : List Context

/-- The handling of an `Assume` command (lines 114–143): in test mode or
inside a subproof it is accepted unconditionally; at root it must be a
premise or equal modulo reordering to one, else the `Unspecified` error
is recorded under rule name `assume`. -/
def assumeRes (cfg : WalkerConfig) (premises : List Term) (stackLen : Nat)
    (index : String) (t : Term) : Except WalkerError Unit :=
  if cfg.isRunningTest || stackLen > 1 then .ok ()
  else if premises.contains t || premises.any (fun u => cfg.eqModReordering t u) then .ok ()
  else .error ⟨.unspecified, "assume", index⟩

/-- Increment the cursor of the top frame
(`commands_stack.last_mut().unwrap().0 += 1`); `none` is the panic of
`unwrap` on an empty stack. -/
def incrLast (v : List (Nat × List ProofCommand)) : Option (List (Nat × List ProofCommand)) :=
  match v.getLast? with
  | none => none
  | some ic => some (v.dropLast ++ [(ic.1 + 1, ic.2)])

/-- Outcome of one iteration of the `check` loop. -/
inductive StepResult where
  | next (s : WalkerState)
  | done
  | failed (e : WalkerError)
  | crashed

/-- One iteration of the `check` loop (lines 74–146): inspect the top
frame's current command, dispatch it, and advance. -/
def walkerStep (cfg : WalkerConfig) (premises : List Term) (s : WalkerState) : StepResult :=
  match s.commandsStack.getLast? with
  | none => .done
  | some (i, commands) =>
    if i = commands.length then
      if s.commandsStack.length = 1 then .done else .crashed
    else
      match commands.get? i with
      | none => .crashed
      | some cmd =>
        match cmd with
        | .step st =>
          if 1 < s.commandsStack.length ∧ i = commands.length - 1 then
            match cfg.checkStepFn st s.commandsStack true with
            | .error e => .failed e
            | .ok _ =>
              match incrLast s.commandsStack.dropLast with
              | none => .crashed
              | some cs => .next ⟨cs, s.contexts.dropLast⟩
          else
            match cfg.checkStepFn st s.commandsStack false with
            | .error e => .failed e
            | .ok _ =>
              match incrLast s.commandsStack with
              | none => .crashed
              | some cs => .next ⟨cs, s.contexts⟩
        | .subproof inner aargs vargs =>
          .next ⟨s.commandsStack ++ [(0, inner)],
                 s.contexts ++ [build_context cfg.applySubst aargs vargs s.contexts.getLast?]⟩
        | .assume idx t =>
          match assumeRes cfg premises s.commandsStack.length idx t with
          | .error e => .failed e
          | .ok _ =>
            match incrLast s.commandsStack with
            | none => .crashed
            | some cs => .next ⟨cs, s.contexts⟩

/-- The state the `check` loop starts from. -/
def initState (proof : Proof) : WalkerState := ⟨[(0, proof.commands)], []⟩

/-- The conservation invariant of §4.4: one more work-stack frame than
contexts. -/
def stackInv (s : WalkerState) : Prop :=
  s.commandsStack.length = s.contexts.length + 1

/-- The coefficient contributed to the literal string `lit` by the
summand `t`, when `t` is a well-formed `(* c ℓ)` summand whose literal
renders to `lit`. -/
def coeffOf (lit : String) : Term → Option Int
  | .op .mult [.int c, l] => if termToString l = lit then some c else none
  | _ => none

/-- The construction of the cumulative map as the claim words it: first
insert, for each pair `(k, v)` of the parent's cumulative map, the pair
`(k, lookup(v, fixed_point, default v))`, and then union in the current
fixed-point map, so that on a shared key the fixed-point binding
prevails.  This definition follows the claim's words; it is compared
against `cumulativeOf`, the construction the source performs. -/
def cumulativeOfClaim (parentCumulative fp : SubstMap) : SubstMap :=
  fp.foldl (fun cum kv => alInsert cum kv.1 kv.2)
    (parentCumulative.foldl
      (fun cum kv => alInsert cum kv.1 ((alLookup fp kv.2).getD kv.2)) [])

/-- A parent context whose cumulative map binds `x` to `a`, used to
separate the two constructions. -/
def ctxParent : Context :=
  { substitutions := []
    substitutions_until_fixed_point := []
    cumulative_substitutions := [(Term.var "x", Term.var "a")]
    bindings := [] }

/-! ### Lemmas about the association-list model -/

section AssocLemmas

variable {α : Type u} {β : Type v} [DecidableEq α]

theorem alLookup_alInsert (m : List (α × β)) (k : α) (v : β) (k' : α) :
    alLookup (alInsert m k v) k' = if k' = k then some v else alLookup m k' := by
  induction m with
  | nil => simp [alInsert, alLookup]
  | cons p rest ih =>
    obtain ⟨k₀, v₀⟩ := p
    by_cases h : k₀ = k
    · subst h
      by_cases h' : k' = k₀ <;> simp [alInsert, alLookup, h']
    · by_cases h' : k' = k₀
      · subst h'
        simp [alInsert, alLookup, h]
      · simp [alInsert, alLookup, h, h', ih]

theorem alLookup_isSome_iff_mem (m : List (α × β)) (k : α) :
    (alLookup m k).isSome ↔ k ∈ alKeys m := by
  induction m with
  | nil => simp [alLookup, alKeys]
  | cons p rest ih =>
    obtain ⟨k₀, v₀⟩ := p
    by_cases h : k = k₀
    · subst h; simp [alLookup, alKeys]
    · simp [alLookup, alKeys, h, ih]

theorem alLookup_eq_none_of_not_mem (m : List (α × β)) (k : α) (h : k ∉ alKeys m) :
    alLookup m k = none := by
  cases hl : alLookup m k with
  | none => rfl
  | some v =>
    exact absurd ((alLookup_isSome_iff_mem m k).mp (by simp [hl])) h

theorem alKeys_alInsert (m : List (α × β)) (k : α) (v : β) :
    alKeys (alInsert m k v) = if k ∈ alKeys m then alKeys m else alKeys m ++ [k] := by
  induction m with
  | nil => simp [alInsert, alKeys]
  | cons p rest ih =>
    obtain ⟨k₀, v₀⟩ := p
    by_cases h : k₀ = k
    · subst h; simp [alInsert, alKeys]
    · have hne : ¬k = k₀ := fun he => h he.symm
      simp only [alInsert, if_neg h, alKeys, List.map_cons] at ih ⊢
      simp only [List.mem_cons, hne, false_or, ih]
      by_cases hm : k ∈ List.map Prod.fst rest <;> simp [hm, hne, List.cons_append]

theorem alInsert_nodup (m : List (α × β)) (k : α) (v : β)
    (h : (alKeys m).Nodup) : (alKeys (alInsert m k v)).Nodup := by
  rw [alKeys_alInsert]
  by_cases hm : k ∈ alKeys m
  · simpa [hm]
  · simp only [hm, if_false]
    simpa [List.nodup_append] using ⟨h, hm⟩

theorem alLookup_eq_some_of_mem (m : List (α × β)) (k : α) (v : β)
    (hnd : (alKeys m).Nodup) (hm : (k, v) ∈ m) : alLookup m k = some v := by
  induction m with
  | nil => cases hm
  | cons p rest ih =>
    obtain ⟨k₀, v₀⟩ := p
    simp only [alKeys, List.map_cons, List.nodup_cons] at hnd
    rcases List.mem_cons.mp hm with h | h
    · cases h; simp [alLookup]
    · have hk : k ≠ k₀ := by
        intro he
        subst he
        exact hnd.1 (List.mem_map.mpr ⟨(k, v), h, rfl⟩)
      simp only [alLookup, if_neg hk]
      exact ih hnd.2 h

theorem alLookup_mem (m : List (α × β)) (k : α) (v : β)
    (h : alLookup m k = some v) : (k, v) ∈ m := by
  induction m with
  | nil => cases h
  | cons p rest ih =>
    obtain ⟨k₀, v₀⟩ := p
    by_cases hk : k = k₀
    · subst hk
      simp only [alLookup, if_pos rfl] at h
      cases h
      exact List.mem_cons_self _ _
    · simp only [alLookup, if_neg hk] at h
      exact List.mem_cons_of_mem _ (ih h)

theorem foldl_alInsert_lookup (pc : List (α × β)) (g : β → β) (acc : List (α × β)) (k : α)
    (hnd : (alKeys pc).Nodup) :
    alLookup (pc.foldl (fun cum kv => alInsert cum kv.1 (g kv.2)) acc) k =
      match alLookup pc k with
      | some v => some (g v)
      | none => alLookup acc k := by
  induction pc generalizing acc with
  | nil => simp [alLookup]
  | cons p rest ih =>
    obtain ⟨k₀, v₀⟩ := p
    simp only [alKeys, List.map_cons, List.nodup_cons] at hnd
    simp only [List.foldl_cons]
    rw [ih _ hnd.2]
    by_cases hk : k = k₀
    · subst hk
      have : alLookup rest k = none :=
        alLookup_eq_none_of_not_mem _ _ (by simpa [alKeys] using hnd.1)
      simp [alLookup, this, alLookup_alInsert]
    · simp only [alLookup, if_neg hk]
      cases alLookup rest k <;> simp [alLookup_alInsert, hk]

end AssocLemmas

/-! ### Lemmas about the rule monad and the parsing helpers -/

@[simp] theorem ruleOut_bind_ok {α β : Type} (a : α) (f : α → RuleOut β) :
    (RuleOut.ok a : RuleOut α) >>= f = f a := rfl

@[simp] theorem ruleOut_bind_err {α β : Type} (e : CheckerError) (f : α → RuleOut β) :
    (RuleOut.err e : RuleOut α) >>= f = .err e := rfl

@[simp] theorem ruleOut_bind_crashed {α β : Type} (f : α → RuleOut β) :
    (RuleOut.crashed : RuleOut α) >>= f = .crashed := rfl

@[simp] theorem ruleOut_pure {α : Type} (a : α) : (pure a : RuleOut α) = .ok a := rfl

@[simp] theorem liftE_ok {α : Type} (a : α) : liftE (.ok a) = RuleOut.ok a := rfl

@[simp] theorem liftE_error {α : Type} (e : CheckerError) :
    liftE (Except.error e : Except CheckerError α) = RuleOut.err e := rfl

@[simp] theorem except_bind_ok {ε α β : Type} (a : α) (f : α → Except ε β) :
    (Except.ok a : Except ε α) >>= f = f a := rfl

@[simp] theorem except_bind_error {ε α β : Type} (e : ε) (f : α → Except ε β) :
    (Except.error e : Except ε α) >>= f = .error e := rfl

@[simp] theorem except_pure {ε α : Type} (a : α) : (pure a : Except ε α) = .ok a := rfl

theorem pbLoop_nodup (ts : List Term) (hm hm' : PbHash)
    (hnd : (alKeys hm).Nodup) (h : pbLoop ts hm = .ok hm') : (alKeys hm').Nodup := by
  induction ts generalizing hm with
  | nil =>
    cases h
    exact hnd
  | cons t rest ih =>
    rw [pbLoop] at h
    cases hmm : matchMult t with
    | error e => rw [hmm] at h; simp at h
    | ok cl =>
      obtain ⟨c₀, l₀⟩ := cl
      rw [hmm] at h
      simp only [except_bind_ok] at h
      cases hci : asIntegerErr c₀ with
      | error e => rw [hci] at h; simp at h
      | ok c =>
        rw [hci] at h
        simp only [except_bind_ok] at h
        exact ih _ (alInsert_nodup _ _ _ hnd) h

theorem get_pb_hashmap_nodup (ts : List Term) (hm : PbHash)
    (h : get_pb_hashmap ts = .ok hm) : (alKeys hm).Nodup :=
  pbLoop_nodup _ _ _ (by simp [alKeys]) h

theorem unwrap_nodup (t : Term) (hm : PbHash) (k : Int)
    (h : unwrap_pseudoboolean_inequality t = .ok (hm, k)) : (alKeys hm).Nodup := by
  unfold unwrap_pseudoboolean_inequality at h
  split at h
  · rename_i pbsum constant
    cases hc : asIntegerErr constant with
    | error e => rw [hc] at h; simp at h
    | ok kc =>
      rw [hc] at h
      simp only [except_bind_ok] at h
      cases hg : get_pb_hashmap pbsum with
      | error e => rw [hg] at h; simp at h
      | ok hm₀ =>
        rw [hg] at h
        simp only [except_bind_ok] at h
        cases h
        exact get_pb_hashmap_nodup _ _ hg
  · cases h

theorem checkKeysIn_ok_iff (dom target : PbHash) (errTerm : Term) :
    checkKeysIn dom target errTerm = .ok () ↔
      ∀ p ∈ dom, (alLookup target p.1).isSome := by
  induction dom with
  | nil => simp [checkKeysIn]
  | cons p rest ih =>
    obtain ⟨lit, c⟩ := p
    rw [checkKeysIn]
    cases hl : alLookup target lit with
    | none => simp [hl]
    | some v => simp [ih, hl]

theorem addLoop_ok_iff (entriesC pbsumL pbsumR : PbHash) (t₁ t₂ : Term) :
    addLoop entriesC pbsumL pbsumR t₁ t₂ = .ok () ↔
      ∀ p ∈ entriesC,
        match alLookup pbsumL p.1, alLookup pbsumR p.1 with
        | some a, some b => a + b = p.2
        | some a, none => a = p.2
        | none, some b => b = p.2
        | none, none => False := by
  induction entriesC with
  | nil => simp [addLoop]
  | cons p rest ih =>
    obtain ⟨lit, cc⟩ := p
    rw [addLoop]
    cases hl : alLookup pbsumL lit <;> cases hr : alLookup pbsumR lit
    · simp [hl, hr]
    · rename_i b
      by_cases hb : b = cc <;> simp [hl, hr, hb, ih]
    · rename_i a
      by_cases ha : a = cc <;> simp [hl, hr, ha, ih]
    · rename_i a b
      by_cases hab : a + b = cc <;> simp [hl, hr, hab, ih]

theorem mulLoop_ok_of (entriesP pbsumC : PbHash) (s : Int) (t₁ t₂ : Term)
    (h : ∀ p ∈ entriesP, alLookup pbsumC p.1 = some (s * p.2)) :
    mulLoop entriesP pbsumC s t₁ t₂ = .ok () := by
  induction entriesP with
  | nil => rfl
  | cons p rest ih =>
    obtain ⟨lit, cp⟩ := p
    have hp := h (lit, cp) (List.mem_cons_self _ _)
    rw [mulLoop, hp]
    simp only [if_pos rfl]
    exact ih fun q hq => h q (List.mem_cons_of_mem _ hq)

/-! ### Claims C1–C4: shape checking of the cutting-planes rules -/

/-- Claim C1: the claim states that `cp_division` fails with a shape
error whenever the conclusion's coefficient map contains a literal absent
from the premise's (`dom(C) ⊆ dom(P)`).  The code performs no such
check: its per-literal loop iterates over the premise's map only, so a
conclusion literal outside the premise is never inspected.  On the
premise `(>= (+ (* 2 x1) 0) 2)` divided by `2`, the conclusion
`(>= (+ (* 1 x1) (* 5 x2) 0) 1)` — with the extra literal `x2` — is
accepted. -/
theorem cp_division_accepts_conclusion_literal_outside_premise :
    cp_division ⟨[⟨[tGe (tSum [tMul 2 (.var "x1"), .int 0]) 2]⟩],
                 [.term (.int 2)],
                 [tGe (tSum [tMul 1 (.var "x1"), tMul 5 (.var "x2"), .int 0]) 1]⟩ =
      .ok () := by decide

/-- Claim C2 (counterexample): the claim states that parsing fails with a
shape error when the final summand is not the integer literal `0`.  In
fact `get_pb_hashmap` drops the last summand without inspecting it: the
clause `(>= (+ (* 1 x1) (* 3 x3)) 1)`, whose final summand is
`(* 3 x3)`, parses successfully to the map `{x1 ↦ 1}`. -/
theorem unwrap_accepts_nonzero_final_summand :
    unwrap_pseudoboolean_inequality
        (tGe (tSum [tMul 1 (.var "x1"), tMul 3 (.var "x3")]) 1) =
      .ok ([("x1", 1)], 1) := rfl

/-- Claim C2 (amended): the final summand of the sum is ignored
unconditionally — `get_pb_hashmap` processes all but the last summand and
never checks that the last one is the integer literal `0`.  Replacing
the final summand by any other term leaves the parse result unchanged. -/
theorem get_pb_hashmap_ignores_final_summand (init : List Term) (t₁ t₂ : Term) :
    get_pb_hashmap (init ++ [t₁]) = get_pb_hashmap (init ++ [t₂]) := by
  unfold get_pb_hashmap
  have h : ∀ t : Term, (init ++ [t]).take ((init ++ [t]).length - 1) = init := by
    intro t
    have hl : (init ++ [t]).length - 1 = init.length := by simp
    rw [hl, List.take_left]
  rw [h t₁, h t₂]

/-- Claim C3 (counterexample): the claim states that all four rules fail
with a `WrongLengthOfClause` error whenever a premise's clause length is
not 1.  `cp_division` performs no such check: on a premise whose clause
has two elements it simply uses the first element and succeeds. -/
theorem cp_division_accepts_premise_clause_of_length_two :
    cp_division ⟨[⟨[tGe (tSum [tMul 2 (.var "x1"), .int 0]) 2, .var "junk"]⟩],
                 [.term (.int 2)],
                 [tGe (tSum [tMul 1 (.var "x1"), .int 0]) 1]⟩ = .ok () := by decide

/-- Claim C3 (amended): `cp_addition` and `cp_multiplication` do reject a
premise whose clause length is not 1 with `WrongLengthOfClause`;
`cp_division` and `cp_saturation` never check the premise's clause
length — they read the clause's first element only, so any further
elements are ignored (and an empty clause is an out-of-bounds panic, see
claim C4). -/
theorem premise_clause_length_checks :
    (∀ (p : Premise) (args : List ProofArg) (concl : List Term),
        p.clause.length ≠ 1 →
        cp_multiplication ⟨[p], args, concl⟩ =
          .err (.wrongLengthOfClause 1 p.clause.length)) ∧
    (∀ (p q : Premise) (args : List ProofArg) (concl : List Term),
        p.clause.length ≠ 1 →
        cp_addition ⟨[p, q], args, concl⟩ =
          .err (.wrongLengthOfClause 1 p.clause.length)) ∧
    (∀ (t : Term) (rest : List Term) (args : List ProofArg) (concl : List Term),
        cp_division ⟨[⟨t :: rest⟩], args, concl⟩ = cp_division ⟨[⟨[t]⟩], args, concl⟩) ∧
    (∀ (t : Term) (rest : List Term) (args : List ProofArg) (concl : List Term),
        cp_saturation ⟨[⟨t :: rest⟩], args, concl⟩ = cp_saturation ⟨[⟨[t]⟩], args, concl⟩) := by
  refine ⟨?_, ?_, ?_, ?_⟩
  · intro p args concl h
    simp [cp_multiplication, assert_num_premises, assert_clause_len, vecIdx, h]
  · intro p q args concl h
    simp [cp_addition, assert_num_premises, assert_clause_len, vecIdx, h]
  · intro t rest args concl
    simp [cp_division, assert_num_premises, vecIdx]
  · intro t rest args concl
    simp [cp_saturation, assert_num_premises, vecIdx]

/-- Claim C3 (witness for the amended claim). -/
theorem premise_clause_length_checks_witness :
    cp_multiplication ⟨[⟨[]⟩], [.term (.int 2)], []⟩ = .err (.wrongLengthOfClause 1 0) ∧
    cp_division ⟨[⟨[.var "a", .var "b"]⟩], [], []⟩ = cp_division ⟨[⟨[.var "a"]⟩], [], []⟩ :=
  ⟨premise_clause_length_checks.1 ⟨[]⟩ [.term (.int 2)] [] (by decide),
   premise_clause_length_checks.2.2.1 (.var "a") [.var "b"] [] []⟩

/-- Claim C4: the claim states that every cutting-planes rule returns
success or a `RuleError` on every well-formed input, including a premise
whose clause is empty.  `cp_division` indexes `premises[0].clause[0]`
without a length guard, so on an empty premise clause it panics (out of
bounds) instead of returning an error. -/
theorem cp_division_crashes_on_empty_premise_clause :
    cp_division ⟨[⟨[]⟩], [.term (.int 2)],
                 [tGe (tSum [tMul 1 (.var "x1"), .int 0]) 1]⟩ = .crashed := by decide

/-! ### Claims C7–C8: functional correctness of addition and multiplication -/

@[simp] theorem vecIdx_cons_zero {α : Type} (a : α) (rest : List α) :
    vecIdx (a :: rest) 0 = .ok a := rfl

@[simp] theorem vecIdx_cons_one {α : Type} (a b : α) (rest : List α) :
    vecIdx (a :: b :: rest) 1 = .ok b := rfl

theorem liftE_unit_bind (e : Except CheckerError Unit) (k : Unit → RuleOut Unit) :
    (liftE e >>= k) = .ok () ↔ (e = .ok () ∧ k () = .ok ()) := by
  cases e with
  | ok a => cases a; simp
  | error e => simp

theorem liftE_eq_ok (e : Except CheckerError Unit) :
    liftE e = .ok () ↔ e = .ok () := by
  cases e with
  | ok a => cases a; simp
  | error e => simp [liftE]

theorem checkKeysIn_ok_iff_keys (dom target : PbHash) (e : Term) :
    checkKeysIn dom target e = .ok () ↔ ∀ lit ∈ alKeys dom, lit ∈ alKeys target := by
  rw [checkKeysIn_ok_iff]
  constructor
  · intro h lit hl
    obtain ⟨p, hp, rfl⟩ := List.mem_map.mp hl
    exact (alLookup_isSome_iff_mem _ _).mp (h p hp)
  · intro h p hp
    exact (alLookup_isSome_iff_mem _ _).mpr (h p.1 (List.mem_map.mpr ⟨p, hp, rfl⟩))

/-- Claim C7: `cp_addition` on premises parsing to `(L, Kl)`, `(R, Kr)`
and a conclusion parsing to `(C, Kc)` succeeds exactly when
`Kc = Kl + Kr`, `dom(L) ⊆ dom(C)`, `dom(R) ⊆ dom(C)`, and every literal
of `dom(C)` carries the sum of its coefficients in `L` and `R` (the
coefficient itself when it occurs in only one of them); a conclusion
literal in neither premise is an error. -/
theorem cp_addition_ok_iff (l r c : Term) (L R C : PbHash) (Kl Kr Kc : Int)
    (hl : unwrap_pseudoboolean_inequality l = .ok (L, Kl))
    (hr : unwrap_pseudoboolean_inequality r = .ok (R, Kr))
    (hc : unwrap_pseudoboolean_inequality c = .ok (C, Kc)) :
    cp_addition ⟨[⟨[l]⟩, ⟨[r]⟩], [], [c]⟩ = .ok () ↔
      (Kc = Kl + Kr ∧
       (∀ lit ∈ alKeys L, lit ∈ alKeys C) ∧
       (∀ lit ∈ alKeys R, lit ∈ alKeys C) ∧
       (∀ lit cc, alLookup C lit = some cc →
          match alLookup L lit, alLookup R lit with
          | some a, some b => cc = a + b
          | some a, none => cc = a
          | none, some b => cc = b
          | none, none => False)) := by
  have hnd := unwrap_nodup c C Kc hc
  have key : cp_addition ⟨[⟨[l]⟩, ⟨[r]⟩], [], [c]⟩ = .ok () ↔
      (Kl + Kr = Kc ∧ checkKeysIn L C c = .ok () ∧ checkKeysIn R C c = .ok () ∧
       addLoop C L R c l = .ok ()) := by
    simp only [cp_addition, assert_num_premises, assert_clause_len, assert_num_args,
      List.length_cons, List.length_nil, List.length_singleton, vecIdx_cons_zero,
      vecIdx_cons_one]
    norm_num
    rw [hl, hr, hc]
    simp only [liftE_ok, ruleOut_bind_ok]
    by_cases hk : Kl + Kr = Kc
    · simp only [hk, eq_self_iff_true, if_true, ruleOut_pure, ruleOut_bind_ok,
        liftE_unit_bind, liftE_eq_ok]
      tauto
    · simp [hk]
  rw [key]
  have h4 : addLoop C L R c l = .ok () ↔
      (∀ lit cc, alLookup C lit = some cc →
        match alLookup L lit, alLookup R lit with
        | some a, some b => cc = a + b
        | some a, none => cc = a
        | none, some b => cc = b
        | none, none => False) := by
    rw [addLoop_ok_iff]
    constructor
    · intro h lit cc hcc
      have hmem := alLookup_mem C lit cc hcc
      have hm := h (lit, cc) hmem
      revert hm
      cases alLookup L lit <;> cases alLookup R lit <;>
        exact fun hm => by first | exact hm | exact hm.symm
    · intro h p hp
      have hcc := alLookup_eq_some_of_mem C p.1 p.2 hnd hp
      have hm := h p.1 p.2 hcc
      revert hm
      cases alLookup L p.1 <;> cases alLookup R p.1 <;>
        exact fun hm => by first | exact hm | exact hm.symm
  rw [h4, checkKeysIn_ok_iff_keys, checkKeysIn_ok_iff_keys]
  constructor
  · rintro ⟨h1, h2, h3, h5⟩
    exact ⟨h1.symm, h2, h3, h5⟩
  · rintro ⟨h1, h2, h3, h5⟩
    exact ⟨h1.symm, h2, h3, h5⟩

/-- Claim C7 (witness): the sum of `(>= (+ (* 1 x1) 0) 1)` with itself is
`(>= (+ (* 2 x1) 0) 2)`. -/
theorem cp_addition_ok_iff_witness :
    cp_addition ⟨[⟨[tGe (tSum [tMul 1 (.var "x1"), .int 0]) 1]⟩,
                  ⟨[tGe (tSum [tMul 1 (.var "x1"), .int 0]) 1]⟩], [],
                 [tGe (tSum [tMul 2 (.var "x1"), .int 0]) 2]⟩ = .ok () := by
  refine (cp_addition_ok_iff (tGe (tSum [tMul 1 (.var "x1"), .int 0]) 1)
    (tGe (tSum [tMul 1 (.var "x1"), .int 0]) 1)
    (tGe (tSum [tMul 2 (.var "x1"), .int 0]) 2)
    [("x1", 1)] [("x1", 1)] [("x1", 2)] 1 1 2
    rfl rfl rfl).mpr ⟨by decide, ?_, ?_, ?_⟩
  · intro lit h; simpa [alKeys] using h
  · intro lit h; simpa [alKeys] using h
  · intro lit cc hcc
    by_cases h : lit = "x1" <;> simp [alLookup, h] at hcc ⊢
    omega

/-- Claim C8: for a premise parsing to `(P, Kp)` and any positive integer
scalar `s`, `cp_multiplication` accepts the conclusion whose coefficient
map sends each literal of `dom(P)` to `s` times its premise coefficient
(and nothing else) and whose constant is `s * Kp`. -/
theorem cp_multiplication_accepts_scaled (p c : Term) (P C : PbHash) (Kp s : Int)
    (_hs : 0 < s)
    (hp : unwrap_pseudoboolean_inequality p = .ok (P, Kp))
    (hc : unwrap_pseudoboolean_inequality c = .ok (C, s * Kp))
    (hdom : ∀ lit, alLookup C lit = (alLookup P lit).map (fun a => s * a)) :
    cp_multiplication ⟨[⟨[p]⟩], [.term (.int s)], [c]⟩ = .ok () := by
  have hndP := unwrap_nodup p P Kp hp
  have h1 : checkKeysIn C P c = .ok () := by
    rw [checkKeysIn_ok_iff]
    intro q hq
    have hq' : (alLookup C q.1).isSome :=
      (alLookup_isSome_iff_mem _ _).mpr (List.mem_map.mpr ⟨q, hq, rfl⟩)
    rw [hdom q.1] at hq'
    simpa using hq'
  have h2 : mulLoop P C s c p = .ok () :=
    mulLoop_ok_of _ _ _ _ _ fun q hq => by
      rw [hdom q.1, alLookup_eq_some_of_mem P q.1 q.2 hndP hq]
      rfl
  simp only [cp_multiplication, assert_num_premises, assert_clause_len, assert_num_args,
    List.length_cons, List.length_nil, List.length_singleton, vecIdx_cons_zero,
    ProofArg.asTerm, asIntegerErr]
  norm_num
  rw [hp, hc]
  simp [h1, h2]

/-- Claim C8 (witness): `(>= (+ (* 1 x1) 0) 1)` scaled by `2` yields
`(>= (+ (* 2 x1) 0) 2)`. -/
theorem cp_multiplication_accepts_scaled_witness :
    cp_multiplication ⟨[⟨[tGe (tSum [tMul 1 (.var "x1"), .int 0]) 1]⟩],
                       [.term (.int 2)],
                       [tGe (tSum [tMul 2 (.var "x1"), .int 0]) 2]⟩ = .ok () :=
  cp_multiplication_accepts_scaled
    (tGe (tSum [tMul 1 (.var "x1"), .int 0]) 1)
    (tGe (tSum [tMul 2 (.var "x1"), .int 0]) 2)
    [("x1", 1)] [("x1", 2)] 1 2 (by decide) rfl rfl
    (fun lit => by by_cases h : lit = "x1" <;> simp [alLookup, h])

/-! ### Claim C10: duplicate literals in a pseudo-boolean sum -/

theorem pbLoop_keeps_last (ts : List Term) (acc : PbHash)
    (h : ∀ t ∈ ts, ∃ c l, t = Term.op .mult [Term.int c, l]) :
    ∃ hm, pbLoop ts acc = .ok hm ∧
      ∀ lit, alLookup hm lit = (ts.reverse.findSome? (coeffOf lit)).or (alLookup acc lit) := by
  induction ts generalizing acc with
  | nil => exact ⟨acc, rfl, fun lit => by simp⟩
  | cons t rest ih =>
    obtain ⟨c, l, rfl⟩ := h _ (List.mem_cons_self _ _)
    obtain ⟨hm, hok, hlk⟩ := ih (alInsert acc (termToString l) c)
      fun t ht => h t (List.mem_cons_of_mem _ ht)
    refine ⟨hm, ?_, ?_⟩
    · rw [pbLoop]
      simp [matchMult, asIntegerErr, hok]
    · intro lit
      rw [hlk lit, List.reverse_cons, List.findSome?_append, Option.or_assoc]
      congr 1
      rw [alLookup_alInsert]
      by_cases hs : termToString l = lit
      · subst hs
        have hB : ([Term.op Op.mult [Term.int c, l]].findSome?
            (coeffOf (termToString l))) = some c := by
          simp [List.findSome?, coeffOf]
        rw [hB]
        simp
      · have hs' : ¬ lit = termToString l := fun he => hs he.symm
        have hB : ([Term.op Op.mult [Term.int c, l]].findSome? (coeffOf lit)) = none := by
          simp [List.findSome?, coeffOf, hs]
        rw [hB]
        simp [hs']

/-- Claim C10: on a pseudo-boolean sum whose summands are all well-formed
`(* c ℓ)` terms, `get_pb_hashmap` succeeds even when a literal occurs in
several summands, and the resulting map binds each literal to the
coefficient of its **last** occurrence among the processed summands (the
earlier coefficients are overwritten by `HashMap::insert`); the four
rules consume only this map, so they see the premise or conclusion as if
only the last occurrence had been written. -/
theorem get_pb_hashmap_keeps_last_occurrence (pbsum : List Term)
    (h : ∀ t ∈ pbsum.take (pbsum.length - 1), ∃ c l, t = Term.op .mult [Term.int c, l]) :
    ∃ hm, get_pb_hashmap pbsum = .ok hm ∧
      ∀ lit, alLookup hm lit =
        (pbsum.take (pbsum.length - 1)).reverse.findSome? (coeffOf lit) := by
  obtain ⟨hm, hok, hlk⟩ := pbLoop_keeps_last _ [] h
  refine ⟨hm, hok, fun lit => ?_⟩
  rw [hlk lit]
  simp [alLookup]

/-- Claim C10 (witness): in `(+ (* 1 x1) (* 2 x1) 0)` the literal `x1`
is bound to `2`, the coefficient of its last occurrence. -/
theorem get_pb_hashmap_keeps_last_occurrence_witness :
    ∃ hm, get_pb_hashmap [tMul 1 (.var "x1"), tMul 2 (.var "x1"), .int 0] = .ok hm ∧
      ∀ lit, alLookup hm lit =
        ([tMul 1 (.var "x1"), tMul 2 (.var "x1"), Term.int 0].take
          ([tMul 1 (.var "x1"), tMul 2 (.var "x1"), Term.int 0].length - 1)).reverse.findSome?
            (coeffOf lit) :=
  get_pb_hashmap_keeps_last_occurrence _ (by
    intro t ht
    simp [tMul] at ht
    rcases ht with h | h <;> subst h
    · exact ⟨1, .var "x1", rfl⟩
    · exact ⟨2, .var "x1", rfl⟩)

/-! ### Claim C6: the cumulative substitution map of `build_context` -/

/-- Claim C6 (counterexample): with a parent cumulative map `{x ↦ a}` and
a subproof assigning `x ↦ b` (fixed-point map `{x ↦ b}`), the context
built by the source binds `x` to `a` — the parent-derived pair,
inserted over the fixed-point copy, prevails — while the map described
by the claim binds `x` to `b`.  The claim's description of
`cumulative_substitutions` is therefore false at this input. -/
theorem build_context_cumulative_counterexample :
    alLookup (build_context (fun _ t => t) [("x", Term.var "b")] []
        (some ctxParent)).cumulative_substitutions (Term.var "x") = some (Term.var "a") ∧
    alLookup (cumulativeOfClaim ctxParent.cumulative_substitutions
        [(Term.var "x", Term.var "b")]) (Term.var "x") = some (Term.var "b") := by
  constructor <;> rfl

theorem cumulativeOf_lookup (pc fp : SubstMap) (k : Term)
    (hnd : (alKeys pc).Nodup) :
    alLookup (cumulativeOf pc fp) k =
      match alLookup pc k with
      | some v => some ((alLookup fp v).getD v)
      | none => alLookup fp k := by
  unfold cumulativeOf
  have h := foldl_alInsert_lookup pc (fun v => (alLookup fp v).getD v) fp k hnd
  cases hpc : alLookup pc k with
  | some v => simp only [hpc] at h ⊢; exact h
  | none => simp only [hpc] at h ⊢; exact h

/-- Claim C6 (amended): the cumulative map of a freshly built context is
the current fixed-point map with the parent-derived pairs inserted over
it: a key bound in the parent's cumulative map is sent to
`lookup(parent[k], fixed_point, default parent[k])` — even when the key
is also bound in the current fixed-point map, so on a shared key the
parent-derived binding prevails, not the fixed-point one — and any
other key is looked up in the current fixed-point map. -/
theorem build_context_cumulative_lookup (applySubst : SubstMap → Term → Term)
    (aargs vargs : List (String × Term)) (parent : Context) (k : Term)
    (hnd : (alKeys parent.cumulative_substitutions).Nodup) :
    alLookup (build_context applySubst aargs vargs (some parent)).cumulative_substitutions k =
      match alLookup parent.cumulative_substitutions k with
      | some v =>
        some ((alLookup (build_context applySubst aargs vargs
          (some parent)).substitutions_until_fixed_point v).getD v)
      | none =>
        alLookup (build_context applySubst aargs vargs
          (some parent)).substitutions_until_fixed_point k := by
  have h := cumulativeOf_lookup parent.cumulative_substitutions
    ((build_context applySubst aargs vargs (some parent)).substitutions_until_fixed_point) k hnd
  have hcum : (build_context applySubst aargs vargs (some parent)).cumulative_substitutions =
      cumulativeOf parent.cumulative_substitutions
        ((build_context applySubst aargs vargs (some parent)).substitutions_until_fixed_point) :=
    rfl
  rw [hcum]
  cases hpc : alLookup parent.cumulative_substitutions k with
  | some v => simp only [hpc] at h ⊢; exact h
  | none => simp only [hpc] at h ⊢; exact h

/-- Claim C6 (witness for the amended claim). -/
theorem build_context_cumulative_lookup_witness :
    alLookup (build_context (fun _ t => t) [("y", Term.var "b")] []
        (some ctxParent)).cumulative_substitutions (Term.var "x") = some (Term.var "a") :=
  (build_context_cumulative_lookup (fun _ t => t) [("y", Term.var "b")] [] ctxParent
      (Term.var "x") (by decide)).trans (by decide)

/-! ### Claims C5 and C9: the walker -/

theorem incrLast_length (v v' : List (Nat × List ProofCommand))
    (h : incrLast v = some v') : v'.length = v.length := by
  unfold incrLast at h
  cases hv : v.getLast? with
  | none => rw [hv] at h; cases h
  | some ic =>
    rw [hv] at h
    cases h
    have hne : v ≠ [] := by intro he; subst he; simp at hv
    have hpos : 0 < v.length := List.length_pos.mpr hne
    simp only [List.length_append, List.length_dropLast, List.length_cons, List.length_nil]
    omega

/-- Claim C9: the walker's conservation invariant — the work stack is one
frame deeper than the context stack.  It holds in the initial state of a
check run, and it is preserved by every iteration of the loop: a context
is pushed exactly when a subproof frame is pushed, both are popped
together when the subproof's closing step has been checked, and every
other command leaves both depths unchanged. -/
theorem walker_conservation (cfg : WalkerConfig) (premises : List Term) (proof : Proof)
    (s s' : WalkerState) :
    stackInv (initState proof) ∧
      (stackInv s → walkerStep cfg premises s = .next s' → stackInv s') := by
  constructor
  · simp [initState, stackInv]
  · intro hinv hstep
    unfold walkerStep at hstep
    cases hlast : s.commandsStack.getLast? with
    | none =>
      rw [hlast] at hstep
      exact StepResult.noConfusion hstep
    | some ic =>
      obtain ⟨i, commands⟩ := ic
      rw [hlast] at hstep
      simp only [] at hstep
      by_cases hend : i = commands.length
      · rw [if_pos hend] at hstep
        by_cases h1 : s.commandsStack.length = 1
        · rw [if_pos h1] at hstep
          exact StepResult.noConfusion hstep
        · rw [if_neg h1] at hstep
          exact StepResult.noConfusion hstep
      · rw [if_neg hend] at hstep
        cases hget : commands.get? i with
        | none =>
          rw [hget] at hstep
          exact StepResult.noConfusion hstep
        | some cmd =>
          rw [hget] at hstep
          cases cmd with
          | step st =>
            simp only [] at hstep
            by_cases hcond : 1 < s.commandsStack.length ∧ i = commands.length - 1
            · rw [if_pos hcond] at hstep
              cases hcs : cfg.checkStepFn st s.commandsStack true with
              | error e =>
                rw [hcs] at hstep
                exact StepResult.noConfusion hstep
              | ok u =>
                rw [hcs] at hstep
                simp only [] at hstep
                cases hincr : incrLast s.commandsStack.dropLast with
                | none =>
                  rw [hincr] at hstep
                  exact StepResult.noConfusion hstep
                | some cs =>
                  rw [hincr] at hstep
                  simp only [] at hstep
                  injection hstep with hs'
                  subst hs'
                  have hlen := incrLast_length _ _ hincr
                  unfold stackInv at hinv ⊢
                  simp only [List.length_dropLast] at hlen ⊢
                  omega
            · rw [if_neg hcond] at hstep
              cases hcs : cfg.checkStepFn st s.commandsStack false with
              | error e =>
                rw [hcs] at hstep
                exact StepResult.noConfusion hstep
              | ok u =>
                rw [hcs] at hstep
                simp only [] at hstep
                cases hincr : incrLast s.commandsStack with
                | none =>
                  rw [hincr] at hstep
                  exact StepResult.noConfusion hstep
                | some cs =>
                  rw [hincr] at hstep
                  simp only [] at hstep
                  injection hstep with hs'
                  subst hs'
                  have hlen := incrLast_length _ _ hincr
                  unfold stackInv at hinv ⊢
                  simp only [] at hinv ⊢
                  omega
          | subproof inner aargs vargs =>
            simp only [] at hstep
            injection hstep with hs'
            subst hs'
            unfold stackInv at hinv ⊢
            simp only [List.length_append, List.length_cons, List.length_nil] at hinv ⊢
            omega
          | assume idx t =>
            simp only [] at hstep
            cases har : assumeRes cfg premises s.commandsStack.length idx t with
            | error e =>
              rw [har] at hstep
              exact StepResult.noConfusion hstep
            | ok u =>
              rw [har] at hstep
              simp only [] at hstep
              cases hincr : incrLast s.commandsStack with
              | none =>
                rw [hincr] at hstep
                exact StepResult.noConfusion hstep
              | some cs =>
                rw [hincr] at hstep
                simp only [] at hstep
                injection hstep with hs'
                subst hs'
                have hlen := incrLast_length _ _ hincr
                unfold stackInv at hinv ⊢
                simp only [] at hinv ⊢
                omega

/-- Claim C9 (witness): a run over a singleton proof in test mode, from
the initial state. -/
theorem walker_conservation_witness :
    stackInv (initState ⟨[], [.assume "h1" (Term.var "x")]⟩) ∧
      stackInv (WalkerState.mk [(1, [ProofCommand.assume "h1" (Term.var "x")])] []) :=
  ⟨(walker_conservation ⟨true, fun _ _ => false, fun _ t => t, fun _ _ _ => .ok ()⟩ []
      ⟨[], [.assume "h1" (Term.var "x")]⟩
      (initState ⟨[], [.assume "h1" (Term.var "x")]⟩)
      ⟨[(1, [ProofCommand.assume "h1" (Term.var "x")])], []⟩).1,
   (walker_conservation ⟨true, fun _ _ => false, fun _ t => t, fun _ _ _ => .ok ()⟩ []
      ⟨[], [.assume "h1" (Term.var "x")]⟩
      (initState ⟨[], [.assume "h1" (Term.var "x")]⟩)
      ⟨[(1, [ProofCommand.assume "h1" (Term.var "x")])], []⟩).2
      (by simp [initState, stackInv]) rfl⟩

/-- Claim C5: when the walker's current command is `Assume{index, term}`,
the command is accepted — the cursor advances, stacks otherwise
untouched — exactly when the checker runs in test mode, or the command
sits inside a subproof (work stack deeper than 1), or the term is a
premise of the proof, or it is equal modulo reordering to some premise;
otherwise the walker fails with the `Unspecified` error recorded under
rule name `assume` and the command's index. -/
theorem walker_assume_handling (cfg : WalkerConfig) (premises : List Term) (s : WalkerState)
    (i : Nat) (commands : List ProofCommand) (idx : String) (t : Term)
    (hlast : s.commandsStack.getLast? = some (i, commands))
    (hcmd : commands.get? i = some (.assume idx t)) :
    (walkerStep cfg premises s =
        .next ⟨s.commandsStack.dropLast ++ [(i + 1, commands)], s.contexts⟩ ↔
      (cfg.isRunningTest = true ∨ 1 < s.commandsStack.length ∨
        t ∈ premises ∨ ∃ p ∈ premises, cfg.eqModReordering t p = true)) ∧
    (walkerStep cfg premises s = .failed ⟨.unspecified, "assume", idx⟩ ↔
      ¬(cfg.isRunningTest = true ∨ 1 < s.commandsStack.length ∨
        t ∈ premises ∨ ∃ p ∈ premises, cfg.eqModReordering t p = true)) := by
  have hlt : i < commands.length := by
    by_contra hge
    rw [List.get?_eq_none.mpr (Nat.le_of_not_lt hge)] at hcmd
    cases hcmd
  have hne : ¬ i = commands.length := Nat.ne_of_lt hlt
  have hincr : incrLast s.commandsStack =
      some (s.commandsStack.dropLast ++ [(i + 1, commands)]) := by
    unfold incrLast
    rw [hlast]
  have hred : walkerStep cfg premises s =
      match assumeRes cfg premises s.commandsStack.length idx t with
      | .error e => .failed e
      | .ok _ => .next ⟨s.commandsStack.dropLast ++ [(i + 1, commands)], s.contexts⟩ := by
    unfold walkerStep
    rw [hlast]
    simp only []
    rw [if_neg hne, hcmd]
    simp only []
    cases assumeRes cfg premises s.commandsStack.length idx t with
    | error e => simp only []
    | ok u => simp only [hincr]
  rw [hred]
  by_cases hA : (cfg.isRunningTest || decide (s.commandsStack.length > 1)) = true
  · have hres : assumeRes cfg premises s.commandsStack.length idx t = .ok () := by
      unfold assumeRes
      rw [if_pos hA]
    rw [hres]
    simp only []
    have hcondA : cfg.isRunningTest = true ∨ 1 < s.commandsStack.length := by
      simpa [Bool.or_eq_true, decide_eq_true_iff] using hA
    constructor
    · simp only [true_iff]
      tauto
    · constructor
      · intro hfalse
        cases hfalse
      · intro hnot
        exact absurd (by tauto) hnot
  · have hA' : ¬(cfg.isRunningTest = true ∨ 1 < s.commandsStack.length) := by
      intro hor
      apply hA
      rcases hor with h | h
      · simp [h]
      · simp [h]
    by_cases hB : (premises.contains t || premises.any fun u => cfg.eqModReordering t u) = true
    · have hres : assumeRes cfg premises s.commandsStack.length idx t = .ok () := by
        unfold assumeRes
        rw [if_neg hA, if_pos hB]
      rw [hres]
      simp only []
      have hcondB : t ∈ premises ∨ ∃ p ∈ premises, cfg.eqModReordering t p = true := by
        rcases Bool.or_eq_true_iff.mp hB with h | h
        · exact Or.inl (List.elem_iff.mp h)
        · exact Or.inr (by simpa [List.any_eq_true] using h)
      constructor
      · simp only [true_iff]
        tauto
      · constructor
        · intro hfalse
          cases hfalse
        · intro hnot
          exact absurd (by tauto) hnot
    · have hres : assumeRes cfg premises s.commandsStack.length idx t =
          .error ⟨.unspecified, "assume", idx⟩ := by
        unfold assumeRes
        rw [if_neg hA, if_neg hB]
      rw [hres]
      simp only []
      have hcondB : ¬(t ∈ premises ∨ ∃ p ∈ premises, cfg.eqModReordering t p = true) := by
        intro hor
        apply hB
        rcases hor with h | h
        · exact Bool.or_eq_true_iff.mpr (Or.inl (List.elem_iff.mpr h))
        · exact Bool.or_eq_true_iff.mpr (Or.inr (List.any_eq_true.mpr (by simpa using h)))
      constructor
      · constructor
        · intro hfalse
          cases hfalse
        · intro hor
          exfalso
          rcases hor with h | h | h | h
          · exact hA' (Or.inl h)
          · exact hA' (Or.inr h)
          · exact hcondB (Or.inl h)
          · exact hcondB (Or.inr h)
      · constructor
        · intro _ hor
          rcases hor with h | h | h | h
          · exact hA' (Or.inl h)
          · exact hA' (Or.inr h)
          · exact hcondB (Or.inl h)
          · exact hcondB (Or.inr h)
        · intro _
          trivial

/-- Claim C5 (witness): at root with an empty premise set and test mode
off, an `Assume` of a non-premise term fails with the `Unspecified`
error under rule name `assume`. -/
theorem walker_assume_handling_witness :
    walkerStep ⟨false, fun _ _ => false, fun _ t => t, fun _ _ _ => .ok ()⟩ []
        ⟨[(0, [.assume "h1" (Term.var "x")])], []⟩ =
      .failed ⟨.unspecified, "assume", "h1"⟩ :=
  (walker_assume_handling ⟨false, fun _ _ => false, fun _ t => t, fun _ _ _ => .ok ()⟩ []
      ⟨[(0, [.assume "h1" (Term.var "x")])], []⟩ 0 [.assume "h1" (Term.var "x")]
      "h1" (Term.var "x") rfl rfl).2.mpr (by simp)
